import Mathlib

/-!
Shallow embedding of `app/resources/sli/models.py` (service-level-reporting).

The module stores sparse numeric time series.  Its core is a compaction
codec: one calendar day of `(minute-of-day, value)` samples for one
indicator is packed into a delimited text blob `"<offset>:<value>,..."`
(`update_indicator_value_compact`, `results_to_buckets`), and decoded back
into timestamped samples (`IndicatorValueCompact.get_indicator_values`).
A raw per-sample upsert (`insert_indicator_value`) is a minor adjunct.

Modelling choices:
* Python floats are idealized as exact rationals plus the three
  non-finite floats (`Val`).  `round(v, 3)` is rounding half-to-even at
  three decimals, the documented behaviour of Python `round`.
* Naive `datetime` values are a calendar date (as a day index) plus
  rational seconds since midnight; `timestamp` / `fromtimestamp` are the
  UTC idealization (the spec requires timezone-normalized instants).
* `str` on a float is the plain decimal rendering; it is exact on every
  value the encoder receives (outputs of `round(v, 3)` and non-finite
  floats).  `int(s)` / `float(s)` accept the decimal spellings Python
  accepts (sign, digits, one dot, `inf` / `nan`).
* The SQLAlchemy session is modelled by the list of executed upsert
  statements, and a table by a list of rows; the Postgres
  `on_conflict_do_update` semantics is applied explicitly.
-/

namespace SLI

/-- Python float values as seen by the SLI code: exact rationals for the
finite case, plus the three non-finite floats. -/
inductive Val where
  | finite (q : ℚ)
  | inf
  | ninf
  | nan
deriving DecidableEq

/-- Python `>` on floats: NaN compares false against everything. -/
def valGt : Val → Val → Bool
  | .finite a, .finite b => decide (b < a)
  | .nan, _ => false
  | _, .nan => false
  | .inf, .inf => false
  | .inf, _ => true
  | _, .inf => false
  | .ninf, _ => false
  | _, .ninf => true

/-- Python `<` on floats. -/
def valLt (a b : Val) : Bool := valGt b a

/-- Python `max(a, b)`: replaces the first argument exactly when `b > a`. -/
def valMax (a b : Val) : Val := if valGt b a then b else a

/-- Python `min(a, b)`: replaces the first argument exactly when `b < a`. -/
def valMin (a b : Val) : Val := if valLt b a then b else a

/-- Round a rational to the nearest integer, ties to even — the rounding
rule of Python `round`. -/
def rhe (q : ℚ) : Int :=
  if q - ⌊q⌋ < 1/2 then ⌊q⌋
  else if 1/2 < q - ⌊q⌋ then ⌊q⌋ + 1
  else if ⌊q⌋ % 2 = 0 then ⌊q⌋ else ⌊q⌋ + 1

/-- Python `round(q, 3)` on a finite value. -/
def round3 (q : ℚ) : ℚ := (rhe (q * 1000) : ℚ) / 1000

/-- Python `round(val, 3)`: finite values round half-to-even at three
decimals; `inf`, `-inf` and `nan` pass through unchanged. -/
def roundVal3 : Val → Val
  | .finite q => .finite (round3 q)
  | v => v

/-- Lines 154-157 of `results_to_buckets`: clamp the magnitude away from
zero (`max(val, MIN_VAL)` for positive, `min(val, MIN_VAL * -1)` for
negative, zero untouched). -/
def clampVal (MIN_VAL : ℚ) (val : Val) : Val :=
  if valGt val (.finite 0) then valMax val (.finite MIN_VAL)
  else if valLt val (.finite 0) then valMin val (.finite (MIN_VAL * -1))
  else val

/-- The whole normalization one sample value undergoes on the compact
path: clamp, then `round(·, 3)`. -/
def clampRound (MIN_VAL : ℚ) (val : Val) : Val := roundVal3 (clampVal MIN_VAL val)

/-- Naive Python `datetime`, idealized: the calendar date as a day index,
plus seconds since midnight (rational, covering microseconds).  A value
produced by `datetime` itself has `0 ≤ sod < 86400`. -/
structure PyDateTime where
  days : Int
  sod : ℚ
deriving DecidableEq

/-- The field bounds every real `datetime` satisfies. -/
def validDT (dt : PyDateTime) : Prop := 0 ≤ dt.sod ∧ dt.sod < 86400

/-- `datetime.timestamp()`: seconds since the epoch (UTC idealization). -/
def pyTimestamp (dt : PyDateTime) : ℚ := 86400 * dt.days + dt.sod

/-- `datetime.fromtimestamp()`: epoch seconds back to a (normalized)
datetime.  Python raises an OverflowError for timestamps outside the
platform-representable year range; this model is total, so decode
success is only ever asserted here for in-range instants (real
timebuckets with offsets below one day). -/
def pyFromtimestamp (x : ℚ) : PyDateTime := ⟨⌊x / 86400⌋, x - 86400 * ⌊x / 86400⌋⟩

/-- Python `int()` on a rational: truncation toward zero. -/
def pyInt (q : ℚ) : Int := if q < 0 then ⌈q⌉ else ⌊q⌋

/-- `datetime(minute.year, minute.month, minute.day)` — line 159: midnight
of the same calendar date. -/
def dayOf (m : PyDateTime) : PyDateTime := ⟨m.days, 0⟩

/-- `int((minute - day).total_seconds() / 60)` — line 160. -/
def offsetOf (m : PyDateTime) : Int :=
  pyInt ((pyTimestamp m - pyTimestamp (dayOf m)) / 60)

/-- The character of one decimal digit (clipped at 9, never reached with
an argument above 9). -/
def digitChar (n : Nat) : Char := Char.ofNat (48 + min n 9)

/-- Value of one decimal digit character; `none` on anything else. -/
def digitVal (c : Char) : Option Nat :=
  if '0' ≤ c ∧ c ≤ '9' then some (c.toNat - 48) else none

/-- Decimal digits of `n`, most significant first.  Fuel-based structural
recursion so concrete instances reduce; fuel `n + 1` always suffices. -/
def natDigitsGo : Nat → Nat → List Char
  | 0, _ => []
  | fuel + 1, n =>
    if n < 10 then [digitChar n]
    else natDigitsGo fuel (n / 10) ++ [digitChar (n % 10)]

/-- Python `str()` of a nonnegative int. -/
def natDigits (n : Nat) : List Char := natDigitsGo (n + 1) n

/-- Python `str()` of an int. -/
def formatInt (i : Int) : List Char :=
  if i < 0 then '-' :: natDigits i.natAbs else natDigits i.toNat

/-- The ASCII whitespace characters Python strips around numeric
literals (Python also strips further Unicode spaces, which never occur
in blobs this module produces). -/
def isPySpace (c : Char) : Bool :=
  c == ' ' || c == '\t' || c == '\n' || c == '\r' || c == '\x0b' || c == '\x0c'

/-- The leading and trailing whitespace stripping `int()` and `float()`
perform. -/
def pyStrip (s : List Char) : List Char :=
  ((s.dropWhile isPySpace).reverse.dropWhile isPySpace).reverse

/-- ASCII lowercasing; the non-finite spellings and the exponent marker
of `float()` are case-insensitive. -/
def toLowerCh (c : Char) : Char :=
  if 'A' ≤ c ∧ c ≤ 'Z' then Char.ofNat (c.toNat + 32) else c

/-- Lowercase a whole string. -/
def toLowerStr (s : List Char) : List Char := s.map toLowerCh

/-- Drop the digit-group underscores Python numeric literals allow (the
model is lenient about their exact placement; Python accepts them only
between digits, so the model accepts a superset). -/
def stripUnderscores (s : List Char) : List Char := s.filter (fun c => c != '_')

/-- Accumulating decimal parse; fails on the first non-digit. -/
def parseNatAux : Nat → List Char → Option Nat
  | acc, [] => some acc
  | acc, c :: cs =>
    match digitVal c with
    | some d => parseNatAux (acc * 10 + d) cs
    | none => none

/-- Python `int(s)` on an unsigned part with no surrounding whitespace:
underscores dropped, then at least one character and all digits (ASCII;
Python additionally accepts Unicode digits, which never occur in blobs
this module produces). -/
def pyParseNat (s : List Char) : Option Nat :=
  match stripUnderscores s with
  | [] => none
  | _ => parseNatAux 0 (stripUnderscores s)

/-- A signed digit string with no surrounding whitespace: optional sign,
then digits — the body of an int literal and the exponent of a float
literal. -/
def parseSignedDigits (s : List Char) : Option Int :=
  match s with
  | [] => none
  | c :: cs =>
    if c = '-' then (pyParseNat cs).map (fun n => -(Int.ofNat n))
    else if c = '+' then (pyParseNat cs).map (fun n => Int.ofNat n)
    else (pyParseNat (c :: cs)).map (fun n => Int.ofNat n)

/-- Python `int(s)`: surrounding whitespace stripped, then an optional
sign and digits. -/
def pyParseInt (s : List Char) : Option Int := parseSignedDigits (pyStrip s)

/-- Python `str.split(sep)`: splits at every separator, keeping empty
pieces; the split of the empty string is `[""]`. -/
def pySplit (sep : Char) : List Char → List (List Char)
  | [] => [[]]
  | c :: cs =>
    let r := pySplit sep cs
    if c = sep then [] :: r
    else
      match r with
      | t :: ts => (c :: t) :: ts
      | [] => [[c]]

/-- Python `sep.join(xs)`. -/
def pyJoin (sep : Char) : List (List Char) → List Char
  | [] => []
  | [t] => t
  | t :: ts => t ++ sep :: pyJoin sep ts

/-- Fractional digits of `f` (`0 ≤ f < 1000`) at three decimal places,
trailing zeros stripped but at least one digit kept — how Python `str`
prints such floats (`2.0`, `0.1`, `3.55`, `0.953`). -/
def frac3 (f : Nat) : List Char :=
  if f = 0 then ['0']
  else if f % 100 = 0 then [digitChar (f / 100)]
  else if f % 10 = 0 then [digitChar (f / 100), digitChar (f / 10 % 10)]
  else [digitChar (f / 100), digitChar (f / 10 % 10), digitChar (f % 10)]

/-- Python `str()` of a float.  Exact for every float the encoder meets:
multiples of `0.001` (the outputs of `round(v, 3)`) and the non-finite
floats. -/
def formatVal : Val → List Char
  | .finite q =>
    (if q < 0 then ['-'] else [])
      ++ natDigits ((1000 * q).num.natAbs / 1000)
      ++ '.' :: frac3 ((1000 * q).num.natAbs % 1000)
  | .inf => ['i', 'n', 'f']
  | .ninf => ['-', 'i', 'n', 'f']
  | .nan => ['n', 'a', 'n']

/-- Negation of a Python float (`float("-" + s)` path). -/
def valNeg : Val → Val
  | .finite q => .finite (-q)
  | .inf => .ninf
  | .ninf => .inf
  | .nan => .nan

/-- Unsigned decimal part of Python `float(s)` before any exponent:
digits (underscores dropped) with at most one dot and at least one digit
overall. -/
def parseUFloat (s : List Char) : Option ℚ :=
  match pySplit '.' s with
  | [a] =>
    match stripUnderscores a with
    | [] => none
    | _ => (parseNatAux 0 (stripUnderscores a)).map (fun (n : Nat) => (n : ℚ))
  | [a, b] =>
    if stripUnderscores a = [] ∧ stripUnderscores b = [] then none
    else
      match parseNatAux 0 (stripUnderscores a), parseNatAux 0 (stripUnderscores b) with
      | some na, some nb =>
        some ((na : ℚ) + (nb : ℚ) / 10 ^ (stripUnderscores b).length)
      | _, _ => none
  | _ => none

/-- A (lowercased) float literal body: mantissa with an optional
`e<signed digits>` exponent, the value scaled exactly (the rational
idealization of the nearest-double Python would store). -/
def parseFloatNumber (s : List Char) : Option ℚ :=
  match pySplit 'e' s with
  | [m] => parseUFloat m
  | [m, e] =>
    match parseUFloat m, parseSignedDigits e with
    | some q, some z => some (q * (10 : ℚ) ^ z)
    | _, _ => none
  | _ => none

/-- Python `float(s)` without surrounding sign or whitespace: the
case-insensitive non-finite spellings, or a decimal literal with
optional exponent. -/
def parseUVal (s : List Char) : Option Val :=
  if toLowerStr s = "inf".data ∨ toLowerStr s = "infinity".data then some .inf
  else if toLowerStr s = "nan".data then some .nan
  else (parseFloatNumber (toLowerStr s)).map .finite

/-- Python `float(s)`: surrounding whitespace stripped, optional sign,
then a decimal literal (with optional exponent) or `inf` / `nan` in any
case. -/
def pyParseFloat (s : List Char) : Option Val :=
  match pyStrip s with
  | [] => none
  | c :: cs =>
    if c = '-' then (parseUVal cs).map valNeg
    else if c = '+' then parseUVal cs
    else parseUVal (c :: cs)

/-- One encoded token of line 134: `str(v[0]) + ":" + str(v[1])`. -/
def formatToken (v : Int × Val) : List Char := formatInt v.1 ++ ':' :: formatVal v.2

/-- Line 134: `','.join(['{}:{}'.format(str(v[0]), str(v[1])) for v in
values]) + ','` — the compact encoding of one day of pairs. -/
def pyEncode (values : List (Int × Val)) : List Char :=
  pyJoin ',' (values.map formatToken) ++ [',']

/-- `v = t.split(':')`, then `int(v[0])` and `float(v[1])` (lines
118-119).  Fails — an `IndexError` or `ValueError` in Python — when the
token has no colon or a side does not parse; parts after a second colon
are ignored. -/
def parseToken (t : List Char) : Option (Int × Val) :=
  match pySplit ':' t with
  | p0 :: p1 :: _ =>
    match pyParseInt p0, pyParseFloat p1 with
    | some o, some v => some (o, v)
    | _, _ => none
  | _ => none

/-- Parse every token; any failing token aborts the whole decode (the
Python exception propagates out of `get_indicator_values`). -/
def parseTokens : List (List Char) → Option (List (Int × Val))
  | [] => some []
  | t :: ts =>
    match parseToken t, parseTokens ts with
    | some p, some ps => some (p :: ps)
    | _, _ => none

/-- Python dict insert (`ivs.update({k: v})`): overwrite in place when the
key is present, else append at the end. -/
def dictUpdate : List (PyDateTime × Val) → PyDateTime → Val → List (PyDateTime × Val)
  | [], k, v => [(k, v)]
  | p :: ps, k, v => if p.1 = k then (k, v) :: ps else p :: dictUpdate ps k v

/-- The non-empty tokens of a blob: `[t for t in s.split(",") if t]`
(line 119). -/
def blobTokens (s : List Char) : List (List Char) :=
  (pySplit ',' s).filter (fun t => !t.isEmpty)

/-- The decoded dict of one bucket: fold the `(offset, value)` pairs
left-to-right, keying each by
`fromtimestamp(timebucket.timestamp() + offset * 60)` and overwriting any
earlier entry with the same key (line 118). -/
def decodeDict (tb : PyDateTime) (pairs : List (Int × Val)) : List (PyDateTime × Val) :=
  pairs.foldl
    (fun ivs p => dictUpdate ivs (pyFromtimestamp (pyTimestamp tb + (p.1 : ℚ) * 60)) p.2)
    []

/-- Row of the `indicatorvalue` table (class IndicatorValue, lines
47-60): primary key `(timestamp, indicator_id)`. -/
structure IndicatorValue where
  timestamp : PyDateTime
  value : Val
  indicator_id : Int
deriving DecidableEq

/-- Row of the `indicatorvaluecompact` table (class
IndicatorValueCompact, lines 100-114): primary key
`(timebucket, indicator_id)`.  The same shape carries the payload of its
upsert statement. -/
structure IndicatorValueCompact where
  timebucket : PyDateTime
  values : String
  indicator_id : Int
deriving DecidableEq

/-- `IndicatorValueCompact.get_indicator_values` (lines 116-122): split
the blob on `,`, drop empty tokens, parse each token, build the dict
keyed by `fromtimestamp(timebucket.timestamp() + int(v[0]) * 60)` with
later tokens overwriting earlier ones, then list the entries as
`IndicatorValue` records.  `none` models the Python exception on a
malformed blob. -/
def get_indicator_values (b : IndicatorValueCompact) : Option (List IndicatorValue) :=
  (parseTokens (blobTokens b.values.data)).map
    (fun pairs =>
      (decodeDict b.timebucket pairs).map (fun kv => ⟨kv.1, kv.2, b.indicator_id⟩))

/-- `defaultdict(list)` append (`buckets[day].append(p)`) preserving dict
insertion order of the day keys. -/
def bucketsInsert :
    List (PyDateTime × List (Int × Val)) → PyDateTime → Int × Val →
      List (PyDateTime × List (Int × Val))
  | [], d, p => [(d, [p])]
  | b :: bs, d, p =>
    if b.1 = d then (b.1, b.2 ++ [p]) :: bs else b :: bucketsInsert bs d p

/-- `results_to_buckets` (lines 150-163): clamp each value, key it by the
midnight of its timestamp, compute the minute offset, and append the
rounded pair to that day bucket. -/
def results_to_buckets (MIN_VAL : ℚ) (results : List (PyDateTime × Val)) :
    List (PyDateTime × List (Int × Val)) :=
  results.foldl
    (fun buckets mv =>
      let val := clampVal MIN_VAL mv.2
      let day := dayOf mv.1
      let offset := pyInt ((pyTimestamp mv.1 - pyTimestamp day) / 60)
      bucketsInsert buckets day (offset, roundVal3 val))
    []

/-- `update_indicator_value_compact` (lines 128-147), seen from the
session: the list of executed `pg_insert ... on_conflict_do_update`
statements, one per day bucket, in loop order.  The function performs no
validation and never raises. -/
def update_indicator_value_compact (MIN_VAL : ℚ) (indicator_id : Int)
    (results : List (PyDateTime × Val)) : List IndicatorValueCompact :=
  (results_to_buckets MIN_VAL results).map
    (fun b => ⟨b.1, String.mk (pyEncode b.2), indicator_id⟩)

/-- Effect on the table of one compact upsert statement: on conflict of
`(timebucket, indicator_id)` set `values = concat(values, new)`, else
insert the row. -/
def execCompactStatement :
    List IndicatorValueCompact → IndicatorValueCompact → List IndicatorValueCompact
  | [], s => [s]
  | r :: rs, s =>
    if r.timebucket = s.timebucket ∧ r.indicator_id = s.indicator_id
    then ⟨r.timebucket, r.values ++ s.values, r.indicator_id⟩ :: rs
    else r :: execCompactStatement rs s

/-- One loop iteration of `update_indicator_value_compact` applied to a
table: the Upsert(day, indicator_id, pairs) of the spec. -/
def upsert_compact (t : List IndicatorValueCompact) (day : PyDateTime) (iid : Int)
    (pairs : List (Int × Val)) : List IndicatorValueCompact :=
  execCompactStatement t ⟨day, String.mk (pyEncode pairs), iid⟩

/-- A whole `update_indicator_value_compact` call applied to a table. -/
def run_update (t : List IndicatorValueCompact) (MIN_VAL : ℚ) (iid : Int)
    (results : List (PyDateTime × Val)) : List IndicatorValueCompact :=
  (update_indicator_value_compact MIN_VAL iid results).foldl execCompactStatement t

/-- The stored blob for a `(timebucket, indicator_id)` key, when present. -/
def lookupCompact : List IndicatorValueCompact → PyDateTime → Int → Option String
  | [], _, _ => none
  | r :: rs, d, iid =>
    if r.timebucket = d ∧ r.indicator_id = iid then some r.values
    else lookupCompact rs d iid

/-- `insert_indicator_value` (lines 77-89): single-row upsert keyed by
`(timestamp, indicator_id)`, replacing only `value` on conflict
(`set_ = update_dict = {"value": value}`). -/
def insert_indicator_value : List IndicatorValue → IndicatorValue → List IndicatorValue
  | [], sli => [sli]
  | r :: rs, sli =>
    if r.timestamp = sli.timestamp ∧ r.indicator_id = sli.indicator_id
    then ⟨r.timestamp, sli.value, r.indicator_id⟩ :: rs
    else r :: insert_indicator_value rs sli

/-- The stored raw value for a `(timestamp, indicator_id)` key, when
present. -/
def lookupRaw : List IndicatorValue → PyDateTime → Int → Option Val
  | [], _, _ => none
  | r :: rs, ts, iid =>
    if r.timestamp = ts ∧ r.indicator_id = iid then some r.value
    else lookupRaw rs ts iid

/-- The finite multiples of `0.001` together with the non-finite floats:
exactly the values whose printed form parses back to themselves, and a
superset of the image of `round(·, 3)`. -/
def decimal3 : Val → Prop
  | .finite q => (1000 * q).den = 1
  | _ => True

/-- The ten decimal digit characters (image of `digitChar`). -/
def digitChars : List Char := (List.range 10).map digitChar

/-- Every character `str()` of an int can produce. -/
def intChars : List Char := '-' :: digitChars

/-- Every character `str()` of a float can produce. -/
def valChars : List Char := '-' :: '.' :: 'i' :: 'n' :: 'f' :: 'a' :: digitChars

/-! ### Digit formatting and parsing lemmas -/

theorem digitVal_digitChar (n : Nat) (h : n < 10) : digitVal (digitChar n) = some n := by
  interval_cases n <;> decide

theorem digitChar_mem_digitChars (n : Nat) : digitChar n ∈ digitChars := by
  rw [digitChar]
  rcases Nat.lt_or_ge n 10 with h | h
  · rw [min_eq_left (by omega)]
    interval_cases n <;> decide
  · rw [min_eq_right (by omega)]
    decide

theorem natDigitsGo_subset (fuel : Nat) :
    ∀ n c, c ∈ natDigitsGo fuel n → c ∈ digitChars := by
  induction fuel with
  | zero => intro n c hc; simp [natDigitsGo] at hc
  | succ fuel ih =>
    intro n c hc
    simp only [natDigitsGo] at hc
    by_cases h : n < 10
    · rw [if_pos h] at hc
      simp only [List.mem_singleton] at hc
      exact hc ▸ digitChar_mem_digitChars n
    · rw [if_neg h] at hc
      rcases List.mem_append.mp hc with h1 | h2
      · exact ih _ _ h1
      · simp only [List.mem_singleton] at h2
        exact h2 ▸ digitChar_mem_digitChars (n % 10)

theorem natDigits_subset (n : Nat) {c : Char} (hc : c ∈ natDigits n) : c ∈ digitChars :=
  natDigitsGo_subset (n + 1) n c hc

theorem natDigitsGo_head (fuel : Nat) :
    ∀ n, ∃ d ds, natDigitsGo (fuel + 1) n = digitChar d :: ds := by
  induction fuel with
  | zero =>
    intro n
    by_cases h : n < 10
    · exact ⟨n, [], by simp [natDigitsGo, h]⟩
    · exact ⟨n % 10, [], by simp [natDigitsGo, h]⟩
  | succ fuel ih =>
    intro n
    by_cases h : n < 10
    · exact ⟨n, [], by simp [natDigitsGo, h]⟩
    · obtain ⟨d, ds, hds⟩ := ih (n / 10)
      refine ⟨d, ds ++ [digitChar (n % 10)], ?_⟩
      rw [natDigitsGo, if_neg h, hds]
      rfl

theorem natDigits_head (n : Nat) : ∃ d ds, natDigits n = digitChar d :: ds :=
  natDigitsGo_head n n

theorem natDigits_ne_nil (n : Nat) : natDigits n ≠ [] := by
  obtain ⟨d, ds, hds⟩ := natDigits_head n
  simp [hds]

theorem parseNatAux_append (acc : Nat) (xs ys : List Char) :
    parseNatAux acc (xs ++ ys) = (parseNatAux acc xs).bind (fun a => parseNatAux a ys) := by
  induction xs generalizing acc with
  | nil => simp [parseNatAux]
  | cons c cs ih =>
    simp only [List.cons_append, parseNatAux]
    cases digitVal c with
    | some d => simp [ih]
    | none => simp

theorem parseNatAux_natDigitsGo (fuel : Nat) :
    ∀ n acc, n < 10 ^ fuel →
      parseNatAux acc (natDigitsGo fuel n) =
        some (acc * 10 ^ (natDigitsGo fuel n).length + n) := by
  induction fuel with
  | zero =>
    intro n acc hn
    interval_cases n
    simp [natDigitsGo, parseNatAux]
  | succ fuel ih =>
    intro n acc hn
    by_cases h : n < 10
    · simp only [natDigitsGo, if_pos h, parseNatAux, digitVal_digitChar n h]
      simp [parseNatAux]
    · simp only [natDigitsGo, if_neg h]
      rw [parseNatAux_append]
      have hdiv : n / 10 < 10 ^ fuel := by
        rw [Nat.div_lt_iff_lt_mul (by omega)]
        calc n < 10 ^ (fuel + 1) := hn
          _ = 10 ^ fuel * 10 := by ring
      rw [ih (n / 10) acc hdiv, Option.some_bind]
      simp only [parseNatAux, digitVal_digitChar _ (Nat.mod_lt _ (by omega)),
        List.length_append, List.length_singleton]
      congr 1
      calc (acc * 10 ^ (natDigitsGo fuel (n / 10)).length + n / 10) * 10 + n % 10
          = acc * (10 ^ (natDigitsGo fuel (n / 10)).length * 10) + (10 * (n / 10) + n % 10) := by
            ring
        _ = acc * 10 ^ ((natDigitsGo fuel (n / 10)).length + 1) + n := by
            rw [Nat.div_add_mod, pow_succ]

theorem n_lt_ten_pow (n : Nat) : n < 10 ^ (n + 1) := by
  calc n < 10 ^ n := Nat.lt_pow_self (by omega) n
    _ ≤ 10 ^ (n + 1) := Nat.pow_le_pow_right (by omega) (by omega)

theorem parseNatAux_natDigits (n acc : Nat) :
    parseNatAux acc (natDigits n) = some (acc * 10 ^ (natDigits n).length + n) :=
  parseNatAux_natDigitsGo (n + 1) n acc (n_lt_ten_pow n)

theorem dropWhile_eq_self_of {p : Char → Bool} {s : List Char}
    (h : ∀ c ∈ s, p c = false) : s.dropWhile p = s := by
  cases s with
  | nil => rfl
  | cons c cs =>
    rw [List.dropWhile_cons, if_neg (by simp [h c (List.mem_cons_self c cs)])]

theorem pyStrip_id {s : List Char} (h : ∀ c ∈ s, isPySpace c = false) :
    pyStrip s = s := by
  rw [pyStrip, dropWhile_eq_self_of h,
    dropWhile_eq_self_of (fun c hc => h c (List.mem_reverse.mp hc)), List.reverse_reverse]

theorem map_toLowerCh_id {s : List Char} (h : ∀ c ∈ s, toLowerCh c = c) :
    toLowerStr s = s := by
  induction s with
  | nil => rfl
  | cons c cs ih =>
    have hcs := ih (fun x hx => h x (List.mem_cons_of_mem c hx))
    rw [toLowerStr] at hcs ⊢
    rw [List.map_cons, h c (List.mem_cons_self c cs), hcs]

theorem stripUnderscores_id {s : List Char} (h : ∀ c ∈ s, c ≠ '_') :
    stripUnderscores s = s := by
  induction s with
  | nil => rfl
  | cons c cs ih =>
    have hcs := ih (fun x hx => h x (List.mem_cons_of_mem c hx))
    rw [stripUnderscores] at hcs ⊢
    rw [List.filter_cons, if_pos (by simpa using h c (List.mem_cons_self c cs)), hcs]

theorem digitChars_lower : ∀ c ∈ digitChars, toLowerCh c = c := by decide

theorem digitChars_no_underscore : ∀ c ∈ digitChars, c ≠ '_' := by decide

theorem intChars_no_space : ∀ c ∈ intChars, isPySpace c = false := by decide

theorem valChars_no_space : ∀ c ∈ valChars, isPySpace c = false := by decide

theorem stripUnderscores_natDigits (n : Nat) :
    stripUnderscores (natDigits n) = natDigits n :=
  stripUnderscores_id (fun c hc => digitChars_no_underscore c (natDigits_subset n hc))

theorem pyParseNat_natDigits (n : Nat) : pyParseNat (natDigits n) = some n := by
  obtain ⟨d, ds, hds⟩ := natDigits_head n
  rw [pyParseNat, stripUnderscores_natDigits, hds]
  show parseNatAux 0 (digitChar d :: ds) = some n
  rw [← hds, parseNatAux_natDigits]
  simp

/-! ### Split and join lemmas -/

theorem pySplit_of_not_mem {sep : Char} {t : List Char} (h : sep ∉ t) :
    pySplit sep t = [t] := by
  induction t with
  | nil => rfl
  | cons c cs ih =>
    have hc : c ≠ sep := fun hc => h (hc ▸ List.mem_cons_self c cs)
    have hcs : sep ∉ cs := fun hm => h (List.mem_cons_of_mem c hm)
    simp only [pySplit, if_neg hc, ih hcs]

theorem pySplit_append {sep : Char} {t : List Char} (rest : List Char) (h : sep ∉ t) :
    pySplit sep (t ++ sep :: rest) = t :: pySplit sep rest := by
  induction t with
  | nil => simp [pySplit]
  | cons c cs ih =>
    have hc : c ≠ sep := fun hc => h (hc ▸ List.mem_cons_self c cs)
    have hcs : sep ∉ cs := fun hm => h (List.mem_cons_of_mem c hm)
    simp only [List.cons_append, pySplit, if_neg hc]
    simp only [List.append_eq]
    rw [ih hcs]

theorem blobTokens_sep (rest : List Char) : blobTokens (',' :: rest) = blobTokens rest := by
  show (List.filter (fun t => !t.isEmpty) ([] :: pySplit ',' rest)) = blobTokens rest
  simp [blobTokens]

theorem blobTokens_token {t : List Char} (rest : List Char) (hmem : ',' ∉ t) (hne : t ≠ []) :
    blobTokens (t ++ ',' :: rest) = t :: blobTokens rest := by
  obtain ⟨c, cs, rfl⟩ := List.exists_cons_of_ne_nil hne
  simp only [blobTokens, pySplit_append rest hmem]
  simp [List.filter]

/-! ### Character classes of the formatted output -/

theorem mem_formatInt {i : Int} {c : Char} (hc : c ∈ formatInt i) : c ∈ intChars := by
  rw [formatInt] at hc
  split at hc
  · rcases List.mem_cons.mp hc with rfl | hc
    · exact List.mem_cons_self _ _
    · exact List.mem_cons_of_mem _ (natDigits_subset _ hc)
  · exact List.mem_cons_of_mem _ (natDigits_subset _ hc)

theorem mem_frac3 {f : Nat} {c : Char} (hc : c ∈ frac3 f) : c ∈ digitChars := by
  rw [frac3] at hc
  split_ifs at hc <;>
    simp only [List.mem_cons, List.mem_singleton, List.not_mem_nil, or_false] at hc
  · exact hc ▸ (by decide)
  · exact hc ▸ digitChar_mem_digitChars _
  · rcases hc with rfl | rfl <;> exact digitChar_mem_digitChars _
  · rcases hc with rfl | rfl | rfl <;> exact digitChar_mem_digitChars _

theorem digitChars_subset_valChars : ∀ c ∈ digitChars, c ∈ valChars := by decide

theorem mem_formatVal {v : Val} {c : Char} (hc : c ∈ formatVal v) : c ∈ valChars := by
  cases v with
  | finite q =>
    rw [formatVal] at hc
    rcases List.mem_append.mp hc with h1 | h2
    · rcases List.mem_append.mp h1 with h3 | h4
      · split at h3
        · rcases List.mem_singleton.mp h3 with rfl
          decide
        · exact absurd h3 (List.not_mem_nil c)
      · exact digitChars_subset_valChars c (natDigits_subset _ h4)
    · rcases List.mem_cons.mp h2 with rfl | h5
      · decide
      · exact digitChars_subset_valChars c (mem_frac3 h5)
  | inf =>
    rw [formatVal] at hc
    simp only [List.mem_cons, List.not_mem_nil, or_false] at hc
    rcases hc with rfl | rfl | rfl <;> decide
  | ninf =>
    rw [formatVal] at hc
    simp only [List.mem_cons, List.not_mem_nil, or_false] at hc
    rcases hc with rfl | rfl | rfl | rfl <;> decide
  | nan =>
    rw [formatVal] at hc
    simp only [List.mem_cons, List.not_mem_nil, or_false] at hc
    rcases hc with rfl | rfl | rfl <;> decide

theorem comma_not_mem_formatInt (i : Int) : ',' ∉ formatInt i :=
  fun h => absurd (mem_formatInt h) (by decide)

theorem colon_not_mem_formatInt (i : Int) : ':' ∉ formatInt i :=
  fun h => absurd (mem_formatInt h) (by decide)

theorem pyParseInt_formatInt (i : Int) : pyParseInt (formatInt i) = some i := by
  have hstrip : pyStrip (formatInt i) = formatInt i :=
    pyStrip_id (fun c hc => intChars_no_space c (mem_formatInt hc))
  rw [pyParseInt, hstrip]
  by_cases hi : i < 0
  · rw [formatInt, if_pos hi]
    show (pyParseNat (natDigits i.natAbs)).map (fun n => -(Int.ofNat n)) = some i
    rw [pyParseNat_natDigits]
    simp only [Option.map_some', Option.some.injEq, Int.ofNat_eq_natCast]
    omega
  · rw [formatInt, if_neg hi]
    obtain ⟨d, ds, hds⟩ := natDigits_head i.toNat
    have hd1 : digitChar d ≠ '-' :=
      ne_of_mem_of_not_mem (digitChar_mem_digitChars d) (by decide)
    have hd2 : digitChar d ≠ '+' :=
      ne_of_mem_of_not_mem (digitChar_mem_digitChars d) (by decide)
    rw [hds]
    show parseSignedDigits (digitChar d :: ds) = some i
    rw [parseSignedDigits, if_neg hd1, if_neg hd2, ← hds, pyParseNat_natDigits]
    simp only [Option.map_some', Option.some.injEq, Int.ofNat_eq_natCast]
    omega

theorem dot_not_mem_natDigits (n : Nat) : '.' ∉ natDigits n :=
  fun h => absurd (natDigits_subset n h) (by decide)

theorem dot_not_mem_frac3 (f : Nat) : '.' ∉ frac3 f :=
  fun h => absurd (mem_frac3 h) (by decide)

theorem comma_not_mem_formatVal (v : Val) : ',' ∉ formatVal v :=
  fun h => absurd (mem_formatVal h) (by decide)

theorem colon_not_mem_formatVal (v : Val) : ':' ∉ formatVal v :=
  fun h => absurd (mem_formatVal h) (by decide)

theorem comma_not_mem_formatToken (p : Int × Val) : ',' ∉ formatToken p := by
  intro h
  rw [formatToken] at h
  rcases List.mem_append.mp h with h1 | h2
  · exact comma_not_mem_formatInt _ h1
  · rcases List.mem_cons.mp h2 with h3 | h4
    · exact absurd h3 (by decide)
    · exact comma_not_mem_formatVal _ h4

theorem formatToken_ne_nil (p : Int × Val) : formatToken p ≠ [] := by
  simp [formatToken]

/-! ### Tokens of an encoded blob -/

theorem blobTokens_encode (ps : List (Int × Val)) (rest : List Char) :
    blobTokens (pyEncode ps ++ rest) = ps.map formatToken ++ blobTokens rest := by
  induction ps with
  | nil =>
    show blobTokens (',' :: rest) = [] ++ blobTokens rest
    rw [blobTokens_sep]
    rfl
  | cons p ps ih =>
    cases ps with
    | nil =>
      have h1 : pyEncode [p] ++ rest = formatToken p ++ ',' :: rest := by
        simp [pyEncode, pyJoin]
      rw [h1, blobTokens_token rest (comma_not_mem_formatToken p) (formatToken_ne_nil p)]
      rfl
    | cons q qs =>
      have h1 : pyEncode (p :: q :: qs) ++ rest =
          formatToken p ++ ',' :: (pyEncode (q :: qs) ++ rest) := by
        simp [pyEncode, pyJoin]
      rw [h1, blobTokens_token _ (comma_not_mem_formatToken p) (formatToken_ne_nil p), ih]
      rfl

theorem blobTokens_nil : blobTokens [] = [] := rfl

/-! ### Round trip of the float rendering -/

theorem parseNatAux_zero_natDigits (n : Nat) : parseNatAux 0 (natDigits n) = some n := by
  rw [parseNatAux_natDigits]
  simp

theorem parseNatAux_digit_cons (acc d : Nat) (hd : d < 10) (cs : List Char) :
    parseNatAux acc (digitChar d :: cs) = parseNatAux (acc * 10 + d) cs := by
  simp only [parseNatAux, digitVal_digitChar d hd]

theorem parseNatAux_frac3 (f : Nat) (hf : f < 1000) :
    ∃ nb : Nat, parseNatAux 0 (frac3 f) = some nb ∧
      (nb : ℚ) / 10 ^ (frac3 f).length = (f : ℚ) / 1000 := by
  rw [frac3]
  split_ifs with h0 h100 h10
  · subst h0
    exact ⟨0, rfl, by norm_num⟩
  · refine ⟨f / 100, ?_, ?_⟩
    · rw [parseNatAux_digit_cons _ _ (by omega)]
      simp only [parseNatAux, Option.some.injEq]
      omega
    · have hfe : (f : ℚ) = ((f / 100 : Nat) : ℚ) * 100 := by
        exact_mod_cast (Nat.div_mul_cancel (Nat.dvd_of_mod_eq_zero h100)).symm
      rw [List.length_singleton, pow_one, hfe]
      field_simp
      ring
  · refine ⟨f / 10, ?_, ?_⟩
    · rw [parseNatAux_digit_cons _ _ (by omega), parseNatAux_digit_cons _ _ (by omega)]
      simp only [parseNatAux, Option.some.injEq]
      omega
    · have hfe : (f : ℚ) = ((f / 10 : Nat) : ℚ) * 10 := by
        exact_mod_cast (Nat.div_mul_cancel (Nat.dvd_of_mod_eq_zero h10)).symm
      rw [show ([digitChar (f / 100), digitChar (f / 10 % 10)].length) = 2 from rfl, hfe]
      field_simp
      ring
  · refine ⟨f, ?_, ?_⟩
    · rw [parseNatAux_digit_cons _ _ (by omega), parseNatAux_digit_cons _ _ (by omega),
        parseNatAux_digit_cons _ _ (by omega)]
      simp only [parseNatAux, Option.some.injEq]
      omega
    · norm_num

theorem dotDigit_chars (ip f : Nat) :
    ∀ c ∈ natDigits ip ++ '.' :: frac3 f, c ∈ '.' :: digitChars := by
  intro c hc
  rcases List.mem_append.mp hc with h1 | h2
  · exact List.mem_cons_of_mem _ (natDigits_subset ip h1)
  · rcases List.mem_cons.mp h2 with rfl | h3
    · exact List.mem_cons_self _ _
    · exact List.mem_cons_of_mem _ (mem_frac3 h3)

theorem dotDigit_lower : ∀ c ∈ '.' :: digitChars, toLowerCh c = c := by decide

theorem dotDigit_no_e : ∀ c ∈ '.' :: digitChars, c ≠ 'e' := by decide

theorem parseUVal_decimal (ip f : Nat) (hf : f < 1000) :
    parseUVal (natDigits ip ++ '.' :: frac3 f) = some (.finite ((ip : ℚ) + (f : ℚ) / 1000)) := by
  obtain ⟨d, ds, hdds⟩ := natDigits_head ip
  have hdi : digitChar d ≠ 'i' := ne_of_mem_of_not_mem (digitChar_mem_digitChars d) (by decide)
  have hdn : digitChar d ≠ 'n' := ne_of_mem_of_not_mem (digitChar_mem_digitChars d) (by decide)
  have hs : natDigits ip ++ '.' :: frac3 f = digitChar d :: (ds ++ '.' :: frac3 f) := by
    rw [hdds]
    rfl
  have hhead : ∀ (c : Char) (L : List Char), digitChar d ≠ c →
      natDigits ip ++ '.' :: frac3 f ≠ c :: L := by
    intro c L hne hcon
    rw [hs] at hcon
    exact hne (List.head_eq_of_cons_eq hcon)
  have h1 : natDigits ip ++ '.' :: frac3 f ≠ "inf".data := hhead 'i' _ hdi
  have h2 : natDigits ip ++ '.' :: frac3 f ≠ "infinity".data := hhead 'i' _ hdi
  have h3 : natDigits ip ++ '.' :: frac3 f ≠ "nan".data := hhead 'n' _ hdn
  have hlow : toLowerStr (natDigits ip ++ '.' :: frac3 f) = natDigits ip ++ '.' :: frac3 f :=
    map_toLowerCh_id (fun c hc => dotDigit_lower c (dotDigit_chars ip f c hc))
  have he : 'e' ∉ natDigits ip ++ '.' :: frac3 f :=
    fun hmem => dotDigit_no_e 'e' (dotDigit_chars ip f 'e' hmem) rfl
  rw [parseUVal, hlow, if_neg (by push_neg; exact ⟨h1, h2⟩), if_neg h3,
    parseFloatNumber, pySplit_of_not_mem he]
  dsimp only
  rw [parseUFloat, pySplit_append _ (dot_not_mem_natDigits ip),
    pySplit_of_not_mem (dot_not_mem_frac3 f)]
  dsimp only
  rw [stripUnderscores_natDigits,
    stripUnderscores_id (fun c hc => digitChars_no_underscore c (mem_frac3 hc))]
  rw [if_neg (by simp [natDigits_ne_nil ip])]
  obtain ⟨nb, hnb, hval⟩ := parseNatAux_frac3 f hf
  rw [parseNatAux_zero_natDigits, hnb]
  dsimp only [Option.map_some']
  rw [hval]

theorem pyParseFloat_formatVal (v : Val) (hdec : decimal3 v) :
    pyParseFloat (formatVal v) = some v := by
  cases v with
  | inf => rfl
  | ninf => rfl
  | nan => rfl
  | finite q =>
    have hden : (1000 * q).den = 1 := hdec
    have hq1000 : (((1000 * q).num : ℚ)) = 1000 * q := by
      conv_rhs => rw [← Rat.num_div_den (1000 * q)]
      rw [hden]
      norm_num
    have hf : (1000 * q).num.natAbs % 1000 < 1000 := Nat.mod_lt _ (by omega)
    have hsum : (1000 : ℚ) * (((1000 * q).num.natAbs / 1000 : Nat) : ℚ)
        + (((1000 * q).num.natAbs % 1000 : Nat) : ℚ) = (((1000 * q).num.natAbs : Nat) : ℚ) := by
      exact_mod_cast Nat.div_add_mod ((1000 * q).num.natAbs) 1000
    have hstrip : pyStrip (formatVal (Val.finite q)) = formatVal (Val.finite q) :=
      pyStrip_id (fun c hc => valChars_no_space c (mem_formatVal hc))
    by_cases hneg : q < 0
    · have h1000q : (1000 : ℚ) * q < 0 := by nlinarith
      have hM : (((1000 * q).num.natAbs : Nat) : ℚ) = -(1000 * q) := by
        rw [Int.cast_natAbs, Int.cast_abs, hq1000, abs_of_neg h1000q]
      have hform : formatVal (Val.finite q) =
          '-' :: (natDigits ((1000 * q).num.natAbs / 1000) ++
            '.' :: frac3 ((1000 * q).num.natAbs % 1000)) := by
        simp only [formatVal, if_pos hneg, List.singleton_append, List.cons_append,
          List.nil_append]
      rw [pyParseFloat, hstrip, hform]
      show (parseUVal (natDigits ((1000 * q).num.natAbs / 1000) ++
        '.' :: frac3 ((1000 * q).num.natAbs % 1000))).map valNeg = some (.finite q)
      rw [parseUVal_decimal _ _ hf]
      simp only [Option.map_some', valNeg, Option.some.injEq, Val.finite.injEq]
      linarith
    · have h1000q : 0 ≤ (1000 : ℚ) * q := by nlinarith [not_lt.mp hneg]
      have hM : (((1000 * q).num.natAbs : Nat) : ℚ) = 1000 * q := by
        rw [Int.cast_natAbs, Int.cast_abs, hq1000, abs_of_nonneg h1000q]
      have hform : formatVal (Val.finite q) =
          natDigits ((1000 * q).num.natAbs / 1000) ++
            '.' :: frac3 ((1000 * q).num.natAbs % 1000) := by
        simp only [formatVal, if_neg hneg, List.nil_append]
      obtain ⟨d, ds, hdds⟩ := natDigits_head ((1000 * q).num.natAbs / 1000)
      have hd1 : digitChar d ≠ '-' :=
        ne_of_mem_of_not_mem (digitChar_mem_digitChars d) (by decide)
      have hd2 : digitChar d ≠ '+' :=
        ne_of_mem_of_not_mem (digitChar_mem_digitChars d) (by decide)
      have hs : natDigits ((1000 * q).num.natAbs / 1000) ++
          '.' :: frac3 ((1000 * q).num.natAbs % 1000) =
          digitChar d :: (ds ++ '.' :: frac3 ((1000 * q).num.natAbs % 1000)) := by
        rw [hdds]
        rfl
      rw [pyParseFloat, hstrip, hform, hs]
      dsimp only
      rw [if_neg hd1, if_neg hd2, ← hs, parseUVal_decimal _ _ hf]
      simp only [Option.some.injEq, Val.finite.injEq]
      linarith

theorem parseToken_formatToken (p : Int × Val) (hdec : decimal3 p.2) :
    parseToken (formatToken p) = some p := by
  obtain ⟨o, v⟩ := p
  have hsplit : pySplit ':' (formatToken (o, v)) = [formatInt o, formatVal v] := by
    rw [formatToken]
    rw [pySplit_append _ (colon_not_mem_formatInt o),
      pySplit_of_not_mem (colon_not_mem_formatVal v)]
  rw [parseToken, hsplit]
  dsimp only
  rw [pyParseInt_formatInt, pyParseFloat_formatVal v hdec]

theorem parseTokens_map_formatToken (ps : List (Int × Val)) (h : ∀ p ∈ ps, decimal3 p.2) :
    parseTokens (ps.map formatToken) = some ps := by
  induction ps with
  | nil => rfl
  | cons p ps ih =>
    rw [List.map_cons, parseTokens, parseToken_formatToken p (h p (List.mem_cons_self p ps)),
      ih (fun q hq => h q (List.mem_cons_of_mem p hq))]

theorem get_indicator_values_encoded (tb : PyDateTime) (iid : Int) (blob : List Char)
    (ps : List (Int × Val)) (htoks : blobTokens blob = ps.map formatToken)
    (h : ∀ p ∈ ps, decimal3 p.2) :
    get_indicator_values ⟨tb, String.mk blob, iid⟩ =
      some ((decodeDict tb ps).map (fun kv => ⟨kv.1, kv.2, iid⟩)) := by
  rw [get_indicator_values]
  dsimp only
  rw [htoks, parseTokens_map_formatToken ps h, Option.map_some']

/-! ### The image of the rounding step is decimal -/

theorem decimal3_roundVal3 (v : Val) : decimal3 (roundVal3 v) := by
  cases v with
  | finite q =>
    show ((1000 : ℚ) * ((rhe (q * 1000) : ℚ) / 1000)).den = 1
    have h : (1000 : ℚ) * ((rhe (q * 1000) : ℚ) / 1000) = ((rhe (q * 1000) : ℚ)) := by ring
    rw [h]
    exact Rat.den_intCast _
  | inf => trivial
  | ninf => trivial
  | nan => trivial

theorem decimal3_clampRound (M : ℚ) (v : Val) : decimal3 (clampRound M v) :=
  decimal3_roundVal3 _

/-! ### Table semantics of the compact upsert statement -/

theorem lookupCompact_exec_fresh (t : List IndicatorValueCompact) (d : PyDateTime) (iid : Int)
    (v : String) (h : lookupCompact t d iid = none) :
    lookupCompact (execCompactStatement t ⟨d, v, iid⟩) d iid = some v := by
  induction t with
  | nil => simp [execCompactStatement, lookupCompact]
  | cons r rs ih =>
    rw [lookupCompact] at h
    by_cases hr : r.timebucket = d ∧ r.indicator_id = iid
    · rw [if_pos hr] at h
      cases h
    · rw [if_neg hr] at h
      rw [execCompactStatement, if_neg hr, lookupCompact, if_neg hr]
      exact ih h

theorem lookupCompact_exec_existing (t : List IndicatorValueCompact) (d : PyDateTime) (iid : Int)
    (v w : String) (h : lookupCompact t d iid = some w) :
    lookupCompact (execCompactStatement t ⟨d, v, iid⟩) d iid = some (w ++ v) := by
  induction t with
  | nil => simp [lookupCompact] at h
  | cons r rs ih =>
    rw [lookupCompact] at h
    by_cases hr : r.timebucket = d ∧ r.indicator_id = iid
    · rw [if_pos hr] at h
      have hw : r.values = w := by injection h
      rw [execCompactStatement, if_pos hr, lookupCompact, if_pos hr, hw]
    · rw [if_neg hr] at h
      rw [execCompactStatement, if_neg hr, lookupCompact, if_neg hr]
      exact ih h

/-! ### Table semantics of the raw upsert statement -/

theorem insert_indicator_value_fresh (t : List IndicatorValue) (sli : IndicatorValue)
    (h : lookupRaw t sli.timestamp sli.indicator_id = none) :
    insert_indicator_value t sli = t ++ [sli] := by
  induction t with
  | nil => rfl
  | cons r rs ih =>
    rw [lookupRaw] at h
    by_cases hr : r.timestamp = sli.timestamp ∧ r.indicator_id = sli.indicator_id
    · rw [if_pos hr] at h
      cases h
    · rw [if_neg hr] at h
      rw [insert_indicator_value, if_neg hr, ih h]
      rfl

theorem lookupRaw_insert_self (t : List IndicatorValue) (sli : IndicatorValue) :
    lookupRaw (insert_indicator_value t sli) sli.timestamp sli.indicator_id = some sli.value := by
  induction t with
  | nil => simp [insert_indicator_value, lookupRaw]
  | cons r rs ih =>
    by_cases hr : r.timestamp = sli.timestamp ∧ r.indicator_id = sli.indicator_id
    · rw [insert_indicator_value, if_pos hr, lookupRaw, if_pos hr]
    · rw [insert_indicator_value, if_neg hr, lookupRaw, if_neg hr]
      exact ih

theorem lookupRaw_insert_other (t : List IndicatorValue) (sli : IndicatorValue)
    (ts : PyDateTime) (iid : Int)
    (hne : ¬(ts = sli.timestamp ∧ iid = sli.indicator_id)) :
    lookupRaw (insert_indicator_value t sli) ts iid = lookupRaw t ts iid := by
  induction t with
  | nil =>
    show (if sli.timestamp = ts ∧ sli.indicator_id = iid then some sli.value
      else lookupRaw [] ts iid) = lookupRaw [] ts iid
    rw [if_neg (fun hx => hne ⟨hx.1.symm, hx.2.symm⟩)]
  | cons r rs ih =>
    by_cases hr : r.timestamp = sli.timestamp ∧ r.indicator_id = sli.indicator_id
    · rw [insert_indicator_value, if_pos hr, lookupRaw, lookupRaw]
      by_cases hk : r.timestamp = ts ∧ r.indicator_id = iid
      · exact absurd ⟨hk.1 ▸ hr.1, hk.2 ▸ hr.2⟩ hne
      · rw [if_neg hk, if_neg hk]
    · rw [insert_indicator_value, if_neg hr, lookupRaw, lookupRaw]
      by_cases hk : r.timestamp = ts ∧ r.indicator_id = iid
      · rw [if_pos hk, if_pos hk]
      · rw [if_neg hk, if_neg hk]
        exact ih

theorem insert_indicator_value_existing_length (t : List IndicatorValue)
    (sli : IndicatorValue) (h : lookupRaw t sli.timestamp sli.indicator_id ≠ none) :
    (insert_indicator_value t sli).length = t.length := by
  induction t with
  | nil => simp [lookupRaw] at h
  | cons r rs ih =>
    rw [lookupRaw] at h
    by_cases hr : r.timestamp = sli.timestamp ∧ r.indicator_id = sli.indicator_id
    · rw [insert_indicator_value, if_pos hr]
      rfl
    · rw [if_neg hr] at h
      rw [insert_indicator_value, if_neg hr]
      simp [ih h]

/-! ### Bucket lemmas -/

theorem bucketsInsert_ne_nil (bs : List (PyDateTime × List (Int × Val))) (d : PyDateTime)
    (p : Int × Val) : bucketsInsert bs d p ≠ [] := by
  cases bs with
  | nil => simp [bucketsInsert]
  | cons b bs =>
    rw [bucketsInsert]
    split_ifs <;> simp

theorem bucketsInsert_mem (bs : List (PyDateTime × List (Int × Val))) (d : PyDateTime)
    (p : Int × Val) :
    ∀ b ∈ bucketsInsert bs d p, ∀ x ∈ b.2,
      (∃ b0 ∈ bs, b.1 = b0.1 ∧ x ∈ b0.2) ∨ (b.1 = d ∧ x = p) := by
  induction bs with
  | nil =>
    intro b hb x hx
    simp only [bucketsInsert, List.mem_singleton] at hb
    subst hb
    simp only [List.mem_singleton] at hx
    exact Or.inr ⟨rfl, hx⟩
  | cons b0 bs ih =>
    intro b hb x hx
    rw [bucketsInsert] at hb
    split_ifs at hb with hd
    · rcases List.mem_cons.mp hb with rfl | hb2
      · rcases List.mem_append.mp hx with h1 | h2
        · exact Or.inl ⟨b0, List.mem_cons_self _ _, rfl, h1⟩
        · simp only [List.mem_singleton] at h2
          exact Or.inr ⟨hd, h2⟩
      · exact Or.inl ⟨b, List.mem_cons_of_mem _ hb2, rfl, hx⟩
    · rcases List.mem_cons.mp hb with rfl | hb2
      · exact Or.inl ⟨b, List.mem_cons_self _ _, rfl, hx⟩
      · rcases ih b hb2 x hx with ⟨b1, hb1, heq, hx1⟩ | hright
        · exact Or.inl ⟨b1, List.mem_cons_of_mem _ hb1, heq, hx1⟩
        · exact Or.inr hright

theorem foldl_buckets_mem (M : ℚ) (rs : List (PyDateTime × Val)) :
    ∀ (acc : List (PyDateTime × List (Int × Val))) (b : PyDateTime × List (Int × Val)),
      b ∈ List.foldl
        (fun buckets mv => bucketsInsert buckets (dayOf mv.1)
          (pyInt ((pyTimestamp mv.1 - pyTimestamp (dayOf mv.1)) / 60),
            roundVal3 (clampVal M mv.2))) acc rs →
      ∀ x ∈ b.2,
        (∃ b0 ∈ acc, b.1 = b0.1 ∧ x ∈ b0.2) ∨
        (∃ mv ∈ rs, b.1 = dayOf mv.1 ∧ x = (offsetOf mv.1, clampRound M mv.2)) := by
  induction rs with
  | nil =>
    intro acc b hb x hx
    exact Or.inl ⟨b, hb, rfl, hx⟩
  | cons mv rs ih =>
    intro acc b hb x hx
    rw [List.foldl_cons] at hb
    rcases ih _ b hb x hx with ⟨b0, hb0, heq, hx0⟩ | ⟨mv1, hmv1, h1, h2⟩
    · rcases bucketsInsert_mem _ _ _ b0 hb0 x hx0 with ⟨b1, hb1, heq1, hx1⟩ | ⟨hd, hp⟩
      · exact Or.inl ⟨b1, hb1, heq.trans heq1, hx1⟩
      · exact Or.inr ⟨mv, List.mem_cons_self _ _, heq.trans hd, hp⟩
    · exact Or.inr ⟨mv1, List.mem_cons_of_mem _ hmv1, h1, h2⟩

theorem foldl_ne_nil {A B : Type} (f : List A → B → List A)
    (hf : ∀ acc b, f acc b ≠ []) :
    ∀ (rs : List B) (acc : List A), acc ≠ [] → List.foldl f acc rs ≠ [] := by
  intro rs
  induction rs with
  | nil => intro acc h; exact h
  | cons b rs ih =>
    intro acc h
    rw [List.foldl_cons]
    exact ih _ (hf acc b)

/-! ### Offset arithmetic -/

theorem offsetOf_eq_floor (m : PyDateTime) (h0 : 0 ≤ m.sod) :
    offsetOf m = ⌊m.sod / 60⌋ := by
  rw [offsetOf, pyInt]
  have he : (pyTimestamp m - pyTimestamp (dayOf m)) / 60 = m.sod / 60 := by
    simp only [pyTimestamp, dayOf]
    ring
  rw [he, if_neg (not_lt.mpr (div_nonneg h0 (by norm_num)))]

theorem floor_sod_div_bounds (x : ℚ) (h0 : 0 ≤ x) (h1 : x < 86400) :
    0 ≤ ⌊x / 60⌋ ∧ ⌊x / 60⌋ ≤ 1439 := by
  constructor
  · exact Int.floor_nonneg.mpr (div_nonneg h0 (by norm_num))
  · have : ⌊x / 60⌋ < 1440 := Int.floor_lt.mpr (by push_cast; linarith)
    omega

/-! ### Pointwise evaluation helpers -/

theorem valMax_finite (a b : ℚ) : valMax (.finite a) (.finite b) = .finite (max a b) := by
  rw [valMax]
  rcases lt_or_le a b with h | h
  · rw [if_pos (by simpa [valGt] using h), max_eq_right (le_of_lt h)]
  · rw [if_neg (by simpa [valGt] using not_lt.mpr h), max_eq_left h]

theorem valMin_finite (a b : ℚ) : valMin (.finite a) (.finite b) = .finite (min a b) := by
  rw [valMin]
  rcases lt_or_le b a with h | h
  · rw [if_pos (by simpa [valLt, valGt] using h), min_eq_right (le_of_lt h)]
  · rw [if_neg (by simpa [valLt, valGt] using not_lt.mpr h), min_eq_left h]

theorem rhe_intCast (z : Int) : rhe ((z : ℚ)) = z := by
  rw [rhe, Int.floor_intCast]
  rw [if_pos (by simp)]

theorem round3_of_int (q : ℚ) (z : Int) (h : q * 1000 = (z : ℚ)) :
    round3 q = (z : ℚ) / 1000 := by
  rw [round3, h, rhe_intCast]

theorem valGt_finite_true {a b : ℚ} (h : b < a) : valGt (.finite a) (.finite b) = true := by
  simpa [valGt] using h

theorem clampRound_pos_fixed (M q : ℚ) (z : Int) (h1 : 0 < q) (h2 : M ≤ q)
    (hz : q * 1000 = (z : ℚ)) : clampRound M (.finite q) = .finite q := by
  rw [clampRound, clampVal, if_pos (valGt_finite_true h1), valMax_finite, max_eq_left h2]
  show Val.finite (round3 q) = Val.finite q
  rw [round3_of_int q z hz]
  congr 1
  field_simp
  linarith

theorem decimal3_of_eq_int (q : ℚ) (z : Int) (h : 1000 * q = (z : ℚ)) :
    decimal3 (.finite q) := by
  show (1000 * q).den = 1
  rw [h]
  exact Rat.den_intCast _

theorem formatVal_eval (q : ℚ) (m : Nat) (hm : (1000 * q).num = (m : Int)) (hq : ¬q < 0) :
    formatVal (.finite q) = natDigits (m / 1000) ++ '.' :: frac3 (m % 1000) := by
  simp only [formatVal, if_neg hq, hm, Int.natAbs_ofNat, List.nil_append]

theorem blobTokens_pyEncode (ps : List (Int × Val)) :
    blobTokens (pyEncode ps) = ps.map formatToken := by
  have h := blobTokens_encode ps []
  rw [List.append_nil] at h
  rw [h, show blobTokens [] = ([] : List (List Char)) from rfl, List.append_nil]

theorem parseTokens_eq_none_iff (ts : List (List Char)) :
    parseTokens ts = none ↔ ∃ t ∈ ts, parseToken t = none := by
  induction ts with
  | nil => simp [parseTokens]
  | cons t ts ih =>
    rw [parseTokens]
    cases hpt : parseToken t with
    | none =>
      simp only [hpt]
      constructor
      · intro _
        exact ⟨t, List.mem_cons_self _ _, hpt⟩
      · intro _
        trivial
    | some p =>
      cases hts : parseTokens ts with
      | none =>
        simp only [hpt, hts]
        constructor
        · intro _
          obtain ⟨t2, ht2, hfail⟩ := ih.mp hts
          exact ⟨t2, List.mem_cons_of_mem _ ht2, hfail⟩
        · intro _
          trivial
      | some ps =>
        simp only [hpt, hts]
        constructor
        · intro hcon
          cases hcon
        · rintro ⟨t2, ht2, hfail⟩
          rcases List.mem_cons.mp ht2 with rfl | ht3
          · rw [hpt] at hfail
            cases hfail
          · have hcon : parseTokens ts = none := ih.mpr ⟨t2, ht3, hfail⟩
            rw [hts] at hcon
            cases hcon

theorem pyFromtimestamp_day_offset (d o : Int) (h0 : 0 ≤ o) (h1 : o ≤ 1439) :
    pyFromtimestamp (pyTimestamp ⟨d, 0⟩ + (o : ℚ) * 60) = ⟨d, (o : ℚ) * 60⟩ := by
  have hx : pyTimestamp ⟨d, 0⟩ + (o : ℚ) * 60 = (d : ℚ) * 86400 + (o : ℚ) * 60 := by
    rw [pyTimestamp]
    ring
  have ho0 : (0 : ℚ) ≤ (o : ℚ) := by exact_mod_cast h0
  have ho1 : (o : ℚ) ≤ 1439 := by exact_mod_cast h1
  have hfl : ⌊(pyTimestamp ⟨d, 0⟩ + (o : ℚ) * 60) / 86400⌋ = d := by
    rw [hx, show ((d : ℚ) * 86400 + (o : ℚ) * 60) / 86400 = (d : ℚ) + (o : ℚ) * 60 / 86400
      from by ring, Int.floor_int_add]
    have h2 : ⌊(o : ℚ) * 60 / 86400⌋ = 0 := by
      rw [Int.floor_eq_zero_iff, Set.mem_Ico]
      constructor
      · positivity
      · rw [div_lt_one (by norm_num)]
        linarith
    rw [h2, add_zero]
  rw [pyFromtimestamp, hfl]
  simp only [PyDateTime.mk.injEq, true_and]
  rw [hx]
  ring

/-! ### Claim theorems -/

/-- C2: for every finite input value, the clamp-and-round step of
`results_to_buckets` produces `round(max(v, MIN_VAL), 3)` when `v > 0`,
`round(min(v, -MIN_VAL), 3)` when `v < 0`, and `0` (rounded) when
`v == 0`; the 3-decimal rounding uses the fixed round-half-to-even tie
rule (`0.0005` rounds down to `0`, `0.0015` rounds up to `0.002`), one of
the two rules the spec allows. -/
theorem C2_clamp_and_round (MIN_VAL q : ℚ) :
    clampRound MIN_VAL (.finite q) =
      .finite (if 0 < q then round3 (max q MIN_VAL)
        else if q < 0 then round3 (min q (-MIN_VAL))
        else 0) ∧
    round3 (1 / 2000) = 0 ∧ round3 (3 / 2000) = 1 / 500 := by
  refine ⟨?_, ?_, ?_⟩
  · rw [clampRound, clampVal]
    rcases lt_trichotomy q 0 with h | h | h
    · rw [if_neg (by simp only [valGt, decide_eq_true_eq]; exact not_lt.mpr (le_of_lt h)),
        if_pos (by simp only [valLt, valGt, decide_eq_true_eq]; exact h),
        mul_neg_one, valMin_finite, if_neg (not_lt.mpr (le_of_lt h)), if_pos h]
      rfl
    · subst h
      rw [if_neg (by simp only [valGt, decide_eq_true_eq]; exact lt_irrefl 0),
        if_neg (by simp only [valLt, valGt, decide_eq_true_eq]; exact lt_irrefl 0),
        if_neg (lt_irrefl 0)]
      show Val.finite (round3 0) = Val.finite 0
      rw [round3_of_int 0 0 (by norm_num)]
      norm_num
    · rw [if_pos (valGt_finite_true h), valMax_finite, if_pos h]
      rfl
  · rw [round3, show ((1 : ℚ) / 2000) * 1000 = 1 / 2 from by norm_num]
    norm_num [rhe]
  · rw [round3, show ((3 : ℚ) / 2000) * 1000 = 3 / 2 from by norm_num]
    norm_num [rhe]

/-- C5: bucketizing keys a sample by the midnight of its own calendar
date (`dayOf`), and its offset is the number of whole minutes since that
midnight, seconds truncated: a sample at exactly midnight has offset `0`,
a sample at `23:59:30` (86370 seconds into the day) has offset `1439`. -/
theorem C5_bucket_keying (m : PyDateTime) (h0 : 0 ≤ m.sod) (h1 : m.sod < 86400) :
    dayOf m = ⟨m.days, 0⟩ ∧
    offsetOf m = ⌊m.sod / 60⌋ ∧
    (m.sod = 0 → offsetOf m = 0) ∧
    (m.sod = 86370 → offsetOf m = 1439) := by
  refine ⟨rfl, offsetOf_eq_floor m h0, ?_, ?_⟩
  · intro hz
    rw [offsetOf_eq_floor m h0, hz]
    norm_num
  · intro hs
    rw [offsetOf_eq_floor m h0, hs]
    norm_num

/-- Witness for C5 at a concrete input: 2024-01-01 23:59:30 (day index
19723, 86370 seconds into the day) maps to offset 1439. -/
theorem C5_bucket_keying_witness :
    (0 : ℚ) ≤ (⟨19723, 86370⟩ : PyDateTime).sod ∧
    (⟨19723, 86370⟩ : PyDateTime).sod < 86400 ∧
    offsetOf ⟨19723, 86370⟩ = 1439 := by
  refine ⟨by norm_num, by norm_num, ?_⟩
  exact (C5_bucket_keying ⟨19723, 86370⟩ (by norm_num) (by norm_num)).2.2.2 rfl

/-- C8: the raw-value upsert applies no clamp or round — the stored value
is the caller's value verbatim — and performs a conflict-resolving
single-row write keyed by `(timestamp, indicator_id)`: a fresh key
appends exactly the given row, an existing key gets its `value` replaced
with no new row, and every other key's stored value is untouched. -/
theorem C8_raw_upsert (t : List IndicatorValue) (sli : IndicatorValue) :
    (lookupRaw t sli.timestamp sli.indicator_id = none →
      insert_indicator_value t sli = t ++ [sli]) ∧
    lookupRaw (insert_indicator_value t sli) sli.timestamp sli.indicator_id = some sli.value ∧
    (∀ ts iid, ¬(ts = sli.timestamp ∧ iid = sli.indicator_id) →
      lookupRaw (insert_indicator_value t sli) ts iid = lookupRaw t ts iid) ∧
    (lookupRaw t sli.timestamp sli.indicator_id ≠ none →
      (insert_indicator_value t sli).length = t.length) :=
  ⟨insert_indicator_value_fresh t sli, lookupRaw_insert_self t sli,
    fun ts iid hne => lookupRaw_insert_other t sli ts iid hne,
    insert_indicator_value_existing_length t sli⟩

/-- Witness for C8: inserting into an empty table appends the exact row,
and re-upserting an existing key replaces its value. -/
theorem C8_raw_upsert_witness :
    insert_indicator_value [] ⟨⟨0, 0⟩, Val.finite 5, 1⟩ = [⟨⟨0, 0⟩, Val.finite 5, 1⟩] ∧
    lookupRaw (insert_indicator_value [⟨⟨0, 0⟩, Val.finite 3, 1⟩] ⟨⟨0, 0⟩, Val.finite 9, 1⟩)
      ⟨0, 0⟩ 1 = some (Val.finite 9) := by
  constructor
  · exact (C8_raw_upsert [] ⟨⟨0, 0⟩, Val.finite 5, 1⟩).1 rfl
  · exact (C8_raw_upsert [⟨⟨0, 0⟩, Val.finite 3, 1⟩] ⟨⟨0, 0⟩, Val.finite 9, 1⟩).2.1

/-- C10: for valid input timestamps, every `(offset, value)` pair emitted
by `results_to_buckets` has its offset in `0..1439` by construction, and
sits in the bucket keyed by the midnight of the very timestamp the offset
was computed from, with the value clamp-rounded. -/
theorem C10_offsets_in_range (M : ℚ) (results : List (PyDateTime × Val))
    (hv : ∀ r ∈ results, 0 ≤ r.1.sod ∧ r.1.sod < 86400) :
    ∀ b ∈ results_to_buckets M results, ∀ p ∈ b.2,
      0 ≤ p.1 ∧ p.1 ≤ 1439 ∧
      ∃ mv ∈ results, b.1 = dayOf mv.1 ∧ p = (offsetOf mv.1, clampRound M mv.2) := by
  intro b hb p hp
  have hb2 : b ∈ List.foldl (fun buckets mv => bucketsInsert buckets (dayOf mv.1)
      (pyInt ((pyTimestamp mv.1 - pyTimestamp (dayOf mv.1)) / 60),
        roundVal3 (clampVal M mv.2))) [] results := hb
  rcases foldl_buckets_mem M results [] b hb2 p hp with ⟨b0, hb0, h3, h4⟩ | ⟨mv, hmv, h1, h2⟩
  · exact absurd hb0 (List.not_mem_nil b0)
  · obtain ⟨hs0, hs1⟩ := hv mv hmv
    obtain ⟨hl, hu⟩ := floor_sod_div_bounds mv.1.sod hs0 hs1
    have hoff : offsetOf mv.1 = ⌊mv.1.sod / 60⌋ := offsetOf_eq_floor mv.1 hs0
    have hp1 : p.1 = offsetOf mv.1 := by rw [h2]
    refine ⟨?_, ?_, mv, hmv, h1, h2⟩
    · rw [hp1, hoff]
      exact hl
    · rw [hp1, hoff]
      exact hu

/-- Witness for C10 at a concrete batch: one sample at 15:53 of day
19723. -/
theorem C10_offsets_in_range_witness :
    (∀ r ∈ [((⟨19723, 57180⟩ : PyDateTime), Val.finite (7 / 2))],
      0 ≤ r.1.sod ∧ r.1.sod < 86400) ∧
    (∀ b ∈ results_to_buckets (1 / 10) [(⟨19723, 57180⟩, Val.finite (7 / 2))], ∀ p ∈ b.2,
      0 ≤ p.1 ∧ p.1 ≤ 1439 ∧
      ∃ mv ∈ [((⟨19723, 57180⟩ : PyDateTime), Val.finite (7 / 2))],
        b.1 = dayOf mv.1 ∧ p = (offsetOf mv.1, clampRound (1 / 10) mv.2)) := by
  have hv : ∀ r ∈ [((⟨19723, 57180⟩ : PyDateTime), Val.finite (7 / 2))],
      0 ≤ r.1.sod ∧ r.1.sod < 86400 := by
    intro r hr
    rw [List.mem_singleton] at hr
    subst hr
    exact ⟨by norm_num, by norm_num⟩
  exact ⟨hv, C10_offsets_in_range (1 / 10) _ hv⟩

/-- C1: decoding the encoding of an ordered sequence of pairs whose
offsets lie in `0..1439` and whose values are already clamped and rounded
(fixed points of `clampRound`) yields exactly the mapping obtained by
folding the pairs left-to-right with overwrite on duplicate keys, each
offset keyed to the instant `timebucket + offset` minutes — `decodeDict`
is literally that fold, and `get_indicator_values` lists its entries. -/
theorem C1_roundtrip (MIN_VAL : ℚ) (tb : PyDateTime) (iid : Int)
    (pairs : List (Int × Val))
    (hp : ∀ p ∈ pairs, 0 ≤ p.1 ∧ p.1 ≤ 1439 ∧ clampRound MIN_VAL p.2 = p.2) :
    get_indicator_values ⟨tb, String.mk (pyEncode pairs), iid⟩ =
      some ((decodeDict tb pairs).map (fun kv => ⟨kv.1, kv.2, iid⟩)) := by
  apply get_indicator_values_encoded
  · exact blobTokens_pyEncode pairs
  · intro p hpp
    rw [← (hp p hpp).2.2]
    exact decimal3_clampRound MIN_VAL p.2

/-- Witness for C1 at a concrete input: the single pair `(0, 1.0)`. -/
theorem C1_roundtrip_witness :
    (∀ p ∈ [((0 : Int), Val.finite 1)],
      0 ≤ p.1 ∧ p.1 ≤ 1439 ∧ clampRound (1 / 10) p.2 = p.2) ∧
    get_indicator_values ⟨⟨0, 0⟩, String.mk (pyEncode [((0 : Int), Val.finite 1)]), 0⟩ =
      some [⟨⟨0, 0⟩, Val.finite 1, 0⟩] := by
  have hp : ∀ p ∈ [((0 : Int), Val.finite 1)],
      0 ≤ p.1 ∧ p.1 ≤ 1439 ∧ clampRound (1 / 10) p.2 = p.2 := by
    intro p hp
    rw [List.mem_singleton] at hp
    subst hp
    exact ⟨le_refl 0, by norm_num,
      clampRound_pos_fixed (1 / 10) 1 1000 (by norm_num) (by norm_num) (by norm_num)⟩
  refine ⟨hp, ?_⟩
  rw [C1_roundtrip (1 / 10) ⟨0, 0⟩ 0 _ hp]
  have hkey : pyFromtimestamp (pyTimestamp ⟨0, 0⟩ + (((0 : Int)) : ℚ) * 60) =
      (⟨0, 0⟩ : PyDateTime) := by
    rw [pyFromtimestamp_day_offset 0 0 (le_refl 0) (by norm_num)]
    simp only [PyDateTime.mk.injEq, true_and]
    norm_num
  have hdd : decodeDict ⟨0, 0⟩ [((0 : Int), Val.finite 1)] = [(⟨0, 0⟩, Val.finite 1)] := by
    rw [decodeDict, List.foldl_cons, List.foldl_nil]
    show dictUpdate [] (pyFromtimestamp (pyTimestamp ⟨0, 0⟩ + (((0 : Int)) : ℚ) * 60))
      (Val.finite 1) = _
    rw [hkey]
    rfl
  rw [hdd]
  rfl

/-- C3 (amended): the encoder is a pure order-preserving serializer —
splitting a nonempty encoding on `,` returns exactly the tokens
`"<offset>:<value>"` in input order plus one trailing empty piece, so the
text is the tokens joined with `,` followed by one trailing `,`; the
empty sequence, however, encodes to the one-character string `","`, not
to `""` as the claim states (that is the only amendment). -/
theorem C3_encoder_order_preserving :
    (∀ pairs : List (Int × Val), pairs ≠ [] →
      pySplit ',' (pyEncode pairs) = pairs.map formatToken ++ [[]]) ∧
    (∀ pairs : List (Int × Val), blobTokens (pyEncode pairs) = pairs.map formatToken) ∧
    pyEncode [] = [','] := by
  refine ⟨?_, blobTokens_pyEncode, rfl⟩
  intro pairs
  induction pairs with
  | nil =>
    intro hne
    exact absurd rfl hne
  | cons p ps ih =>
    intro _
    cases ps with
    | nil =>
      have h1 : pyEncode [p] = formatToken p ++ ',' :: [] := by
        simp [pyEncode, pyJoin]
      rw [h1, pySplit_append _ (comma_not_mem_formatToken p)]
      rfl
    | cons q qs =>
      have h1 : pyEncode (p :: q :: qs) = formatToken p ++ ',' :: pyEncode (q :: qs) := by
        simp [pyEncode, pyJoin]
      rw [h1, pySplit_append _ (comma_not_mem_formatToken p), ih (by simp)]
      rfl

/-- Witness for C3 at a concrete nonempty input. -/
theorem C3_encoder_order_preserving_witness :
    ([((0 : Int), Val.finite 1)] : List (Int × Val)) ≠ [] ∧
    pySplit ',' (pyEncode [((0 : Int), Val.finite 1)]) =
      ([((0 : Int), Val.finite 1)] : List (Int × Val)).map formatToken ++ [[]] := by
  refine ⟨by simp, C3_encoder_order_preserving.1 _ (by simp)⟩

/-- C3 counterexample: the code encodes the empty sequence to the
one-character string "," — the join of zero tokens still gets the
unconditional trailing comma — and not to the empty string required by
the claim. -/
theorem C3_empty_encoding_counterexample :
    pyEncode [] = ",".data ∧ pyEncode [] ≠ "".data :=
  ⟨rfl, by decide⟩

/-- C7 (amended): `update_indicator_value_compact` performs no input
validation and cannot raise: it is a total function from batches to
storage statements, and every nonempty batch produces at least one
storage statement regardless of the values — including non-finite ones
(the counterexample shows an `inf` value being encoded and shipped). -/
theorem C7_no_validation (MIN_VAL : ℚ) (iid : Int)
    (results : List (PyDateTime × Val)) (hne : results ≠ []) :
    update_indicator_value_compact MIN_VAL iid results ≠ [] := by
  rw [update_indicator_value_compact]
  intro hcon
  have hmap : results_to_buckets MIN_VAL results = [] := List.map_eq_nil_iff.mp hcon
  obtain ⟨mv, rs2, rfl⟩ := List.exists_cons_of_ne_nil hne
  rw [results_to_buckets, List.foldl_cons] at hmap
  exact foldl_ne_nil _ (fun acc b => bucketsInsert_ne_nil _ _ _) rs2 _
    (bucketsInsert_ne_nil _ _ _) hmap

/-- Witness for C7: a nonempty batch (even one holding only the
non-finite value `inf`) yields a storage statement. -/
theorem C7_no_validation_witness :
    ([((⟨0, 0⟩ : PyDateTime), Val.inf)] : List (PyDateTime × Val)) ≠ [] ∧
    update_indicator_value_compact (1 / 10) 42 [(⟨0, 0⟩, Val.inf)] ≠ [] :=
  ⟨by simp, C7_no_validation (1 / 10) 42 _ (by simp)⟩

/-- C7 counterexample: the batch `{midnight ↦ inf}` is not rejected with
any error before storage — the compact store executes exactly one
storage statement for it, carrying the non-finite token `0:inf`. -/
theorem C7_nonfinite_reaches_storage :
    update_indicator_value_compact (1 / 10) 42 [(⟨0, 0⟩, Val.inf)] =
      [⟨⟨0, 0⟩, "0:inf,", 42⟩] := by
  have hoff : pyInt ((pyTimestamp ⟨0, 0⟩ - pyTimestamp (dayOf ⟨0, 0⟩)) / 60) = 0 := by
    rw [pyInt, if_neg (by norm_num [pyTimestamp, dayOf])]
    norm_num [pyTimestamp, dayOf]
  have hrb : results_to_buckets (1 / 10) [(⟨0, 0⟩, Val.inf)] =
      [(⟨0, 0⟩, [((0 : Int), Val.inf)])] := by
    rw [results_to_buckets, List.foldl_cons, List.foldl_nil]
    show bucketsInsert [] (dayOf ⟨0, 0⟩)
      (pyInt ((pyTimestamp ⟨0, 0⟩ - pyTimestamp (dayOf ⟨0, 0⟩)) / 60),
        roundVal3 (clampVal (1 / 10) Val.inf)) = _
    rw [hoff]
    rfl
  rw [update_indicator_value_compact, hrb, List.map_cons, List.map_nil]
  show [(⟨⟨0, 0⟩, String.mk (pyEncode [((0 : Int), Val.inf)]), 42⟩ : IndicatorValueCompact)] = _
  have henc : String.mk (pyEncode [((0 : Int), Val.inf)]) = "0:inf," := by decide
  rw [henc]

/-- C4 (amended): a failing token rejects the whole blob — if any
non-empty token of the blob fails to parse (its first `:`-part fails
`int()` or its second `:`-part fails `float()`), decoding fails for the
entire blob and no token is skipped; a token whose split on `:` has
fewer than two parts, i.e. a token with no `:` at all, always fails
(the program's `v[1]` raises IndexError).  A token with MORE than one
`:` is NOT rejected — the parts after the second colon are silently
ignored (see the counterexample) — which amends the claim's
"exactly one ':'" condition.  The pinned examples hold:
`"12:1.0,bad,"` is rejected as a whole (`float("bad")` fails) and `""`
decodes to the empty result. -/
theorem C4_malformed_blob_rejection :
    (∀ b : IndicatorValueCompact,
      (∃ t ∈ blobTokens b.values.data, parseToken t = none) →
        get_indicator_values b = none) ∧
    (∀ t : List Char, (pySplit ':' t).length < 2 → parseToken t = none) ∧
    get_indicator_values ⟨⟨0, 0⟩, "12:1.0,bad,", 0⟩ = none ∧
    get_indicator_values ⟨⟨0, 0⟩, "", 0⟩ = some [] := by
  have h1 : ∀ b : IndicatorValueCompact,
      (∃ t ∈ blobTokens b.values.data, parseToken t = none) →
        get_indicator_values b = none := by
    intro b hex
    rw [get_indicator_values, Option.map_eq_none']
    exact (parseTokens_eq_none_iff _).mpr hex
  have h2 : ∀ t : List Char, (pySplit ':' t).length < 2 → parseToken t = none := by
    intro t ht
    cases hsp : pySplit ':' t with
    | nil => rw [parseToken, hsp]
    | cons a rest =>
      cases rest with
      | nil => rw [parseToken, hsp]
      | cons b rest2 =>
        rw [hsp] at ht
        simp only [List.length_cons] at ht
        omega
  exact ⟨h1, h2, h1 _ ⟨'b' :: 'a' :: 'd' :: [], by decide, rfl⟩, rfl⟩

/-- Witness: the blob `"12:1.0,bad,"` holds the colon-free token `"bad"`,
so the first part of `C4_malformed_blob_rejection` rejects the whole
blob, and the second part fails that token from its one-part split. -/
theorem C4_malformed_blob_rejection_witness :
    get_indicator_values ⟨⟨0, 0⟩, "12:1.0,bad,", 0⟩ = none ∧
    parseToken ('b' :: 'a' :: 'd' :: []) = none :=
  ⟨C4_malformed_blob_rejection.1 _ ⟨'b' :: 'a' :: 'd' :: [], by decide, rfl⟩,
   C4_malformed_blob_rejection.2.1 _ (by decide)⟩

/-- C4 counterexample: the blob `"1:2:3,"` holds a token that does not
have exactly one `:`, yet decoding succeeds — `int("1")` and
`float("2")` are taken from the first two parts and the `"3"` is
ignored — contradicting the claim that any such blob is rejected. -/
theorem C4_two_colons_counterexample :
    get_indicator_values ⟨⟨0, 0⟩, "1:2:3,", 7⟩ =
      some [⟨⟨0, 60⟩, Val.finite 2, 7⟩] ∧
    (pySplit ':' ('1' :: ':' :: '2' :: ':' :: '3' :: [])).length ≠ 2 := by
  constructor
  · have hpt : parseToken ('1' :: ':' :: '2' :: ':' :: '3' :: []) =
        some ((1 : Int), Val.finite 2) := by
      have h2 : pyParseFloat ['2'] = some (Val.finite ((2 : Nat) : ℚ)) := rfl
      have h2b : pyParseFloat ['2'] = some (Val.finite 2) := by
        rw [h2]
        norm_num
      rw [parseToken, show pySplit ':' ('1' :: ':' :: '2' :: ':' :: '3' :: []) =
        [['1'], ['2'], ['3']] from rfl]
      dsimp only
      rw [show pyParseInt ['1'] = some 1 from rfl, h2b]
    rw [get_indicator_values]
    dsimp only
    rw [show blobTokens (("1:2:3,").data) = [('1' :: ':' :: '2' :: ':' :: '3' :: [])] from rfl]
    rw [parseTokens, hpt, parseTokens]
    dsimp only
    have hkey : pyFromtimestamp (pyTimestamp ⟨0, 0⟩ + (((1 : Int)) : ℚ) * 60) =
        (⟨0, 60⟩ : PyDateTime) := by
      rw [pyFromtimestamp_day_offset 0 1 (by norm_num) (by norm_num)]
      simp only [PyDateTime.mk.injEq, true_and]
      norm_num
    have hdd : decodeDict ⟨0, 0⟩ [((1 : Int), Val.finite 2)] = [(⟨0, 60⟩, Val.finite 2)] := by
      rw [decodeDict, List.foldl_cons, List.foldl_nil]
      show dictUpdate [] (pyFromtimestamp (pyTimestamp ⟨0, 0⟩ + (((1 : Int)) : ℚ) * 60))
        (Val.finite 2) = _
      rw [hkey]
      rfl
    rw [Option.map_some', hdd]
    rfl
  · decide

/-- C6: the compact upsert appends and never overwrites: on a fresh
`(day, indicator_id)` key the first Upsert inserts a row holding
`Encode(P1)`, a second Upsert makes the stored blob the concatenation
`Encode(P1) ++ Encode(P2)`, and decoding that blob equals the
left-fold-overwrite of `P1` then `P2` in that order. -/
theorem C6_append_never_overwrites (t : List IndicatorValueCompact) (day : PyDateTime)
    (iid : Int) (P1 P2 : List (Int × Val)) (MIN_VAL : ℚ)
    (hfresh : lookupCompact t day iid = none)
    (hp : ∀ p ∈ P1 ++ P2, 0 ≤ p.1 ∧ p.1 ≤ 1439 ∧ clampRound MIN_VAL p.2 = p.2) :
    lookupCompact (upsert_compact t day iid P1) day iid = some (String.mk (pyEncode P1)) ∧
    lookupCompact (upsert_compact (upsert_compact t day iid P1) day iid P2) day iid =
      some (String.mk (pyEncode P1 ++ pyEncode P2)) ∧
    get_indicator_values ⟨day, String.mk (pyEncode P1 ++ pyEncode P2), iid⟩ =
      some ((decodeDict day (P1 ++ P2)).map (fun kv => ⟨kv.1, kv.2, iid⟩)) := by
  have h1 : lookupCompact (upsert_compact t day iid P1) day iid =
      some (String.mk (pyEncode P1)) :=
    lookupCompact_exec_fresh t day iid _ hfresh
  refine ⟨h1, ?_, ?_⟩
  · have h2 := lookupCompact_exec_existing (upsert_compact t day iid P1) day iid
      (String.mk (pyEncode P2)) (String.mk (pyEncode P1)) h1
    have hmk : String.mk (pyEncode P1) ++ String.mk (pyEncode P2) =
        String.mk (pyEncode P1 ++ pyEncode P2) := by
      apply String.ext
      rw [String.data_append]
    rw [← hmk]
    exact h2
  · apply get_indicator_values_encoded
    · rw [blobTokens_encode P1 (pyEncode P2), blobTokens_pyEncode P2, List.map_append]
    · intro p hpp
      rw [← (hp p hpp).2.2]
      exact decimal3_clampRound MIN_VAL p.2

/-- Witness for C6: two single-pair upserts against the empty table. -/
theorem C6_append_never_overwrites_witness :
    lookupCompact ([] : List IndicatorValueCompact) ⟨0, 0⟩ 0 = none ∧
    (∀ p ∈ ([((0 : Int), Val.finite 1)] ++ [((1 : Int), Val.finite 2)]),
      0 ≤ p.1 ∧ p.1 ≤ 1439 ∧ clampRound (1 / 10) p.2 = p.2) ∧
    lookupCompact (upsert_compact (upsert_compact [] ⟨0, 0⟩ 0 [((0 : Int), Val.finite 1)])
        ⟨0, 0⟩ 0 [((1 : Int), Val.finite 2)]) ⟨0, 0⟩ 0 =
      some (String.mk (pyEncode [((0 : Int), Val.finite 1)] ++
        pyEncode [((1 : Int), Val.finite 2)])) := by
  have hfresh : lookupCompact ([] : List IndicatorValueCompact) ⟨0, 0⟩ 0 = none := rfl
  have hp : ∀ p ∈ ([((0 : Int), Val.finite 1)] ++ [((1 : Int), Val.finite 2)]),
      0 ≤ p.1 ∧ p.1 ≤ 1439 ∧ clampRound (1 / 10) p.2 = p.2 := by
    intro p hp
    simp only [List.cons_append, List.nil_append, List.mem_cons,
      List.not_mem_nil, or_false] at hp
    rcases hp with rfl | rfl
    · exact ⟨le_refl 0, by norm_num,
        clampRound_pos_fixed (1 / 10) 1 1000 (by norm_num) (by norm_num) (by norm_num)⟩
    · exact ⟨by norm_num, by norm_num,
        clampRound_pos_fixed (1 / 10) 2 2000 (by norm_num) (by norm_num) (by norm_num)⟩
  exact ⟨hfresh, hp,
    (C6_append_never_overwrites [] ⟨0, 0⟩ 0 _ _ (1 / 10) hfresh hp).2.1⟩

/-- C9: the pinned concrete scenario with `MIN_VAL = 0.1`.  The first
batch for indicator 42 on day 19723 (2024-01-01) — `00:00:00 ↦ 0.03`
(clamped up to `0.1`) and `15:53:00 ↦ 3.5` (offset 953) — produces the
stored blob `"0:0.1,953:3.5,"`; a second batch with a sample at offset 0
and value `2.0` appends, making the stored blob
`"0:0.1,953:3.5,0:2.0,"`, whose decode maps offset 0 to `2.0` (last
occurrence wins) and offset 953 to `3.5`. -/
theorem C9_concrete_scenario :
    run_update [] (1 / 10) 42
        [(⟨19723, 0⟩, Val.finite (3 / 100)), (⟨19723, 57180⟩, Val.finite (7 / 2))] =
      [⟨⟨19723, 0⟩, "0:0.1,953:3.5,", 42⟩] ∧
    run_update [⟨⟨19723, 0⟩, "0:0.1,953:3.5,", 42⟩] (1 / 10) 42
        [(⟨19723, 0⟩, Val.finite 2)] =
      [⟨⟨19723, 0⟩, "0:0.1,953:3.5,0:2.0,", 42⟩] ∧
    get_indicator_values ⟨⟨19723, 0⟩, "0:0.1,953:3.5,0:2.0,", 42⟩ =
      some [⟨⟨19723, 0⟩, Val.finite 2, 42⟩, ⟨⟨19723, 57180⟩, Val.finite (7 / 2), 42⟩] := by
  have hv1 : clampRound (1 / 10) (.finite (3 / 100)) = .finite (1 / 10) := by
    rw [clampRound, clampVal, if_pos (valGt_finite_true (by norm_num)), valMax_finite,
      max_eq_right (by norm_num : (3 : ℚ) / 100 ≤ 1 / 10)]
    show Val.finite (round3 (1 / 10)) = _
    rw [round3_of_int (1 / 10) 100 (by norm_num)]
    congr 1
    norm_num
  have hv2 : clampRound (1 / 10) (.finite (7 / 2)) = .finite (7 / 2) :=
    clampRound_pos_fixed (1 / 10) (7 / 2) 3500 (by norm_num) (by norm_num) (by norm_num)
  have hv3 : clampRound (1 / 10) (.finite 2) = .finite 2 :=
    clampRound_pos_fixed (1 / 10) 2 2000 (by norm_num) (by norm_num) (by norm_num)
  have ho1 : offsetOf ⟨19723, 0⟩ = 0 := by
    rw [offsetOf_eq_floor _ (by norm_num)]
    show ⌊(0 : ℚ) / 60⌋ = 0
    norm_num
  have ho2 : offsetOf ⟨19723, 57180⟩ = 953 := by
    rw [offsetOf_eq_floor _ (by norm_num)]
    show ⌊(57180 : ℚ) / 60⌋ = 953
    norm_num
  have hf01 : formatVal (.finite (1 / 10)) = ['0', '.', '1'] := by
    rw [formatVal_eval (1 / 10) 100 (by norm_num) (by norm_num)]
    rfl
  have hf35 : formatVal (.finite (7 / 2)) = ['3', '.', '5'] := by
    rw [formatVal_eval (7 / 2) 3500 (by norm_num) (by norm_num)]
    rfl
  have hf2 : formatVal (.finite 2) = ['2', '.', '0'] := by
    rw [formatVal_eval 2 2000 (by norm_num) (by norm_num)]
    rfl
  have henc1 : pyEncode [((0 : Int), Val.finite (1 / 10)), ((953 : Int), Val.finite (7 / 2))] =
      ("0:0.1,953:3.5,").data := by
    simp only [pyEncode, List.map_cons, List.map_nil, formatToken]
    rw [hf01, hf35]
    decide
  have henc2 : pyEncode [((0 : Int), Val.finite 2)] = ("0:2.0,").data := by
    simp only [pyEncode, List.map_cons, List.map_nil, formatToken]
    rw [hf2]
    decide
  have hrb1 : results_to_buckets (1 / 10)
      [(⟨19723, 0⟩, Val.finite (3 / 100)), (⟨19723, 57180⟩, Val.finite (7 / 2))] =
      [(⟨19723, 0⟩, [((0 : Int), Val.finite (1 / 10)), ((953 : Int), Val.finite (7 / 2))])] := by
    rw [results_to_buckets, List.foldl_cons, List.foldl_cons, List.foldl_nil]
    show bucketsInsert
      (bucketsInsert [] (dayOf ⟨19723, 0⟩)
        (offsetOf ⟨19723, 0⟩, clampRound (1 / 10) (.finite (3 / 100))))
      (dayOf ⟨19723, 57180⟩)
      (offsetOf ⟨19723, 57180⟩, clampRound (1 / 10) (.finite (7 / 2))) = _
    rw [ho1, ho2, hv1, hv2]
    show bucketsInsert [(⟨19723, 0⟩, [((0 : Int), Val.finite (1 / 10))])] ⟨19723, 0⟩
      ((953 : Int), Val.finite (7 / 2)) = _
    rw [bucketsInsert, if_pos rfl]
    rfl
  refine ⟨?_, ?_, ?_⟩
  · rw [run_update, update_indicator_value_compact, hrb1, List.map_cons, List.map_nil]
    dsimp only
    rw [henc1, List.foldl_cons, List.foldl_nil]
    rfl
  · have hrb2 : results_to_buckets (1 / 10) [(⟨19723, 0⟩, Val.finite 2)] =
        [(⟨19723, 0⟩, [((0 : Int), Val.finite 2)])] := by
      rw [results_to_buckets, List.foldl_cons, List.foldl_nil]
      show bucketsInsert [] (dayOf ⟨19723, 0⟩)
        (offsetOf ⟨19723, 0⟩, clampRound (1 / 10) (.finite 2)) = _
      rw [ho1, hv3]
      rfl
    rw [run_update, update_indicator_value_compact, hrb2, List.map_cons, List.map_nil]
    dsimp only
    rw [henc2, List.foldl_cons, List.foldl_nil]
    rw [execCompactStatement, if_pos ⟨rfl, rfl⟩]
    dsimp only
    have happ : ("0:0.1,953:3.5," : String) ++ String.mk (("0:2.0,").data) =
        "0:0.1,953:3.5,0:2.0," := by decide
    rw [happ]
  · have hdec : ∀ p ∈ [((0 : Int), Val.finite (1 / 10)), ((953 : Int), Val.finite (7 / 2)),
        ((0 : Int), Val.finite 2)], decimal3 p.2 := by
      intro p hp
      simp only [List.mem_cons, List.not_mem_nil, or_false] at hp
      rcases hp with rfl | rfl | rfl
      · exact decimal3_of_eq_int (1 / 10) 100 (by norm_num)
      · exact decimal3_of_eq_int (7 / 2) 3500 (by norm_num)
      · exact decimal3_of_eq_int 2 2000 (by norm_num)
    have htoks : blobTokens (("0:0.1,953:3.5,0:2.0,").data) =
        ([((0 : Int), Val.finite (1 / 10)), ((953 : Int), Val.finite (7 / 2)),
          ((0 : Int), Val.finite 2)]).map formatToken := by
      simp only [List.map_cons, List.map_nil, formatToken]
      rw [hf01, hf35, hf2]
      decide
    have h := get_indicator_values_encoded ⟨19723, 0⟩ 42 (("0:0.1,953:3.5,0:2.0,").data)
      _ htoks hdec
    rw [show (⟨⟨19723, 0⟩, String.mk (("0:0.1,953:3.5,0:2.0,").data), 42⟩ :
      IndicatorValueCompact) = ⟨⟨19723, 0⟩, "0:0.1,953:3.5,0:2.0,", 42⟩ from rfl] at h
    rw [h]
    have hk0 : pyFromtimestamp (pyTimestamp ⟨19723, 0⟩ + (((0 : Int)) : ℚ) * 60) =
        (⟨19723, 0⟩ : PyDateTime) := by
      rw [pyFromtimestamp_day_offset 19723 0 (by norm_num) (by norm_num)]
      simp only [PyDateTime.mk.injEq, true_and]
      norm_num
    have hk953 : pyFromtimestamp (pyTimestamp ⟨19723, 0⟩ + (((953 : Int)) : ℚ) * 60) =
        (⟨19723, 57180⟩ : PyDateTime) := by
      rw [pyFromtimestamp_day_offset 19723 953 (by norm_num) (by norm_num)]
      simp only [PyDateTime.mk.injEq, true_and]
      norm_num
    have hne : (⟨19723, 0⟩ : PyDateTime) ≠ ⟨19723, 57180⟩ := by
      intro hcon
      rw [PyDateTime.mk.injEq] at hcon
      exact absurd hcon.2 (by norm_num)
    have hdd : decodeDict ⟨19723, 0⟩ [((0 : Int), Val.finite (1 / 10)),
        ((953 : Int), Val.finite (7 / 2)), ((0 : Int), Val.finite 2)] =
        [(⟨19723, 0⟩, Val.finite 2), (⟨19723, 57180⟩, Val.finite (7 / 2))] := by
      rw [decodeDict, List.foldl_cons, List.foldl_cons, List.foldl_cons, List.foldl_nil]
      show dictUpdate (dictUpdate (dictUpdate []
          (pyFromtimestamp (pyTimestamp ⟨19723, 0⟩ + (((0 : Int)) : ℚ) * 60))
          (Val.finite (1 / 10)))
          (pyFromtimestamp (pyTimestamp ⟨19723, 0⟩ + (((953 : Int)) : ℚ) * 60))
          (Val.finite (7 / 2)))
        (pyFromtimestamp (pyTimestamp ⟨19723, 0⟩ + (((0 : Int)) : ℚ) * 60))
        (Val.finite 2) = _
      rw [hk0, hk953]
      rw [show dictUpdate [] (⟨19723, 0⟩ : PyDateTime) (Val.finite (1 / 10)) =
        [(⟨19723, 0⟩, Val.finite (1 / 10))] from rfl]
      rw [dictUpdate, if_neg hne]
      rw [show dictUpdate [] (⟨19723, 57180⟩ : PyDateTime) (Val.finite (7 / 2)) =
        [(⟨19723, 57180⟩, Val.finite (7 / 2))] from rfl]
      rw [dictUpdate, if_pos rfl]
    rw [hdd]
    rfl

end SLI
